import Mathlib

attribute [local semireducible] Rat.add Rat.mul Rat.sub Rat.inv

/-!
Shallow embedding of the core of the index-js repository (browser agent):
the element resolver (src/browser/utils.ts), the state synchronizer's
retry/fallback logic (src/browser/browser.ts), the conversation log
(agent/messageManager.ts) and the control loop (agent/agent.ts),
together with theorems settling the specification claims about them.

Numbers are modelled as exact rationals; JS arrays as lists; the stable
Array.prototype.sort with comparator cmp as List.insertionSort with the
total preorder (fun a b => cmp a b ≤ 0); in-place mutation as explicit
result values.
-/

namespace IndexJs

/-- Axis-aligned rectangle as stored on detected elements: the source keeps
left/top/right/bottom and width/height as separate fields. -/
structure Rect where
  left : ℚ
  top : ℚ
  right : ℚ
  bottom : ℚ
  width : ℚ
  height : ℚ
  deriving DecidableEq, Repr

/-- Area as used by the overlap filter's sort and eviction rule:
rect.width * rect.height. -/
def Rect.area (r : Rect) : ℚ := r.width * r.height

/-- Interactive element fields used by the resolver (utils.ts). -/
structure InteractiveElement where
  index : Int
  browserAgentId : String
  weight : ℚ
  zIndex : Int
  rect : Rect
  deriving DecidableEq, Repr

/-- calculateIou from utils.ts: intersection over union of two rectangles,
0 when they do not intersect, also 0 when the union area is not positive. -/
def calculateIou (rect1 rect2 : Rect) : ℚ :=
  let intersectLeft := max rect1.left rect2.left
  let intersectTop := max rect1.top rect2.top
  let intersectRight := min rect1.right rect2.right
  let intersectBottom := min rect1.bottom rect2.bottom
  if intersectRight < intersectLeft ∨ intersectBottom < intersectTop then 0
  else
    let area1 := (rect1.right - rect1.left) * (rect1.bottom - rect1.top)
    let area2 := (rect2.right - rect2.left) * (rect2.bottom - rect2.top)
    let intersectionArea := (intersectRight - intersectLeft) * (intersectBottom - intersectTop)
    let unionArea := area1 + area2 - intersectionArea
    if 0 < unionArea then intersectionArea / unionArea else 0

/-- isFullyContained from utils.ts: rect1 lies entirely within rect2. -/
def isFullyContained (rect1 rect2 : Rect) : Prop :=
  rect2.left ≤ rect1.left ∧ rect1.right ≤ rect2.right ∧
    rect2.top ≤ rect1.top ∧ rect1.bottom ≤ rect2.bottom

instance (r1 r2 : Rect) : Decidable (isFullyContained r1 r2) := by
  unfold isFullyContained; infer_instance

/-- Comparator of the overlap filter's sort, as a total preorder:
areaWeightOrder a b holds iff the JS comparator returns ≤ 0 on (a, b),
i.e. descending area, ties broken by descending weight. -/
def areaWeightOrder (a b : InteractiveElement) : Prop :=
  b.rect.area < a.rect.area ∨ (b.rect.area = a.rect.area ∧ b.weight ≤ a.weight)

instance : DecidableRel areaWeightOrder := fun a b => by
  unfold areaWeightOrder; infer_instance

instance : IsTotal InteractiveElement areaWeightOrder where
  total a b := by
    unfold areaWeightOrder
    rcases lt_trichotomy a.rect.area b.rect.area with h | h | h
    · exact Or.inr (Or.inl h)
    · rcases le_total b.weight a.weight with hw | hw
      · exact Or.inl (Or.inr ⟨h.symm, hw⟩)
      · exact Or.inr (Or.inr ⟨h, hw⟩)
    · exact Or.inl (Or.inl h)

instance : IsTrans InteractiveElement areaWeightOrder where
  trans a b c hab hbc := by
    unfold areaWeightOrder at *
    rcases hab with h1 | ⟨e1, w1⟩
    · rcases hbc with h2 | ⟨e2, w2⟩
      · exact Or.inl (h2.trans h1)
      · exact Or.inl (e2 ▸ h1)
    · rcases hbc with h2 | ⟨e2, w2⟩
      · exact Or.inl (e1 ▸ h2)
      · exact Or.inr ⟨e2.trans e1, w2.trans w1⟩

/-- The in-place elements.sort of filterOverlappingElements: a stable sort
by descending area, ties by descending weight. -/
def sortAreaWeight (elements : List InteractiveElement) : List InteractiveElement :=
  List.insertionSort areaWeightOrder elements

/-- Inner loop of filterOverlappingElements: scan the accepted list in order
for the current candidate. Result none means the candidate is dropped;
result (some acc) is the accepted list after the scan (one accepted element
may have been evicted), the candidate is then appended. The early break of
the source is modelled by returning the remaining accepted elements
unvisited. -/
def scanAccepted (iouThreshold : ℚ) (current : InteractiveElement) :
    List InteractiveElement → Option (List InteractiveElement)
  | [] => some []
  | existing :: rest =>
    if iouThreshold < calculateIou current.rect existing.rect then
      none
    else if isFullyContained current.rect existing.rect then
      if current.weight ≤ existing.weight ∧ existing.zIndex = current.zIndex then
        none
      else if existing.rect.area * (1/2) ≤ current.rect.area then
        some rest
      else
        (scanAccepted iouThreshold current rest).map (existing :: ·)
    else
      (scanAccepted iouThreshold current rest).map (existing :: ·)

/-- Outer loop of filterOverlappingElements: process the (sorted) candidates
in order, keeping an accepted list. -/
def filterLoop (iouThreshold : ℚ) :
    List InteractiveElement → List InteractiveElement → List InteractiveElement
  | filtered, [] => filtered
  | filtered, current :: rest =>
    match scanAccepted iouThreshold current filtered with
    | none => filterLoop iouThreshold filtered rest
    | some filtered1 => filterLoop iouThreshold (filtered1 ++ [current]) rest

/-- filterOverlappingElements from utils.ts (iouThreshold defaults to 0.7 at
call sites). The input array is first sorted in place by descending area,
ties by descending weight. -/
def filterOverlappingElements (elements : List InteractiveElement)
    (iouThreshold : ℚ) : List InteractiveElement :=
  if elements.isEmpty then []
  else filterLoop iouThreshold [] (sortAreaWeight elements)

/-- Content of the caller's array after filterOverlappingElements returns:
elements.sort is in place, so the caller observes the sorted array. -/
def filterOverlappingArrayAfter (elements : List InteractiveElement) :
    List InteractiveElement :=
  if elements.isEmpty then elements else sortAreaWeight elements

/-- Comparator of the sort by top edge, as a total preorder. -/
def topOrder (a b : InteractiveElement) : Prop := a.rect.top ≤ b.rect.top

instance : DecidableRel topOrder := fun a b => by
  unfold topOrder; infer_instance

instance : IsTotal InteractiveElement topOrder where
  total a b := le_total a.rect.top b.rect.top

instance : IsTrans InteractiveElement topOrder where
  trans a b c hab hbc := le_trans hab hbc

/-- Comparator of the within-row sort by left edge, as a total preorder. -/
def leftOrder (a b : InteractiveElement) : Prop := a.rect.left ≤ b.rect.left

instance : DecidableRel leftOrder := fun a b => by
  unfold leftOrder; infer_instance

instance : IsTotal InteractiveElement leftOrder where
  total a b := le_total a.rect.left b.rect.left

instance : IsTrans InteractiveElement leftOrder where
  trans a b c hab hbc := le_trans hab hbc

/-- Row-grouping loop of sortElementsByPosition: lastElement is the last
element added to the current row, currentRow the row built so far
(nonempty, ending in lastElement). The same-row tolerance is 20 pixels. -/
def groupRowsAux (lastElement : InteractiveElement)
    (currentRow : List InteractiveElement) :
    List InteractiveElement → List (List InteractiveElement)
  | [] => [currentRow]
  | element :: rest =>
    if |element.rect.top - lastElement.rect.top| ≤ 20 then
      groupRowsAux element (currentRow ++ [element]) rest
    else
      currentRow :: groupRowsAux element [element] rest

/-- Group a top-sorted element list into rows (sortElementsByPosition). -/
def groupRows : List InteractiveElement → List (List InteractiveElement)
  | [] => []
  | element :: rest => groupRowsAux element [element] rest

/-- Reassign the index fields sequentially starting from n. -/
def reindexFrom (n : Nat) : List InteractiveElement → List InteractiveElement
  | [] => []
  | e :: rest => { e with index := (n : Int) } :: reindexFrom (n + 1) rest

/-- Order the elements of a list in reading order, without the index
reassignment: sort by top edge, group into rows, sort each row by left
edge, flatten. -/
def arrangeByPosition (elements : List InteractiveElement) :
    List InteractiveElement :=
  ((groupRows (List.insertionSort topOrder elements)).map
    (List.insertionSort leftOrder)).flatten

/-- sortElementsByPosition from utils.ts: rows top to bottom, each row left
to right, then the index field of every element object is overwritten with
its position in the flattened result. -/
def sortElementsByPosition (elements : List InteractiveElement) :
    List InteractiveElement :=
  if elements.isEmpty then []
  else reindexFrom 0 (arrangeByPosition elements)

/-- filterElements from utils.ts: overlap filtering followed by the
reading-order sort. -/
def filterElements (elements : List InteractiveElement)
    (iouThreshold : ℚ) : List InteractiveElement :=
  sortElementsByPosition (filterOverlappingElements elements iouThreshold)

/-! State synchronizer (browser.ts). The capture cycle (the try block of
the private method) is abstracted as the outcome of each invocation: a new
snapshot or an error. -/

/-- Body of Browser.updateState as seen per invocation: the catch clause of
the underscored update method returns the last known good state when the
cycle fails and such a state exists, and rethrows otherwise. -/
def updateStateOnce {σ ε : Type} (lastState : Option σ)
    (cycleResult : Except ε σ) : Except ε σ :=
  match cycleResult with
  | .ok s => .ok s
  | .error e =>
    match lastState with
    | some s => .ok s
    | none => .error e

/-- Retry driver of the exponential-backoff wrapper, with startingDelay
500ms, timeMultiple 1.5 and delayFirstAttempt false: run attempt k; on an
error retry while retries remain, waiting 500 * 1.5 ^ k before attempt
k + 1. Returns the result, the number of attempts made from here, and the
delays waited. -/
def backOffAux {σ ε : Type} (f : Nat → Except ε σ) (k : Nat) :
    Nat → Except ε σ × Nat × List ℚ
  | 0 => (f k, 1, [])
  | retries + 1 =>
    match f k with
    | .ok s => (.ok s, 1, [])
    | .error _ =>
      let rec1 := backOffAux f (k + 1) retries
      (rec1.1, rec1.2.1 + 1, 500 * (3/2) ^ k :: rec1.2.2)

/-- backOff as configured in Browser.updateState: numOfAttempts total
attempts, retrying on every error. -/
def backOffRun {σ ε : Type} (f : Nat → Except ε σ) (numOfAttempts : Nat) :
    Except ε σ × Nat × List ℚ :=
  backOffAux f 0 (numOfAttempts - 1)

/-- Browser.updateState: the capture cycle is wrapped in updateStateOnce
(stale-state fallback) and retried with exponential backoff, 3 attempts.
cycle k is the outcome of the k-th invocation of the capture cycle; the
result records the returned state or propagated error, the number of cycle
invocations, and the delays waited between them. -/
def updateState {σ ε : Type} (lastState : Option σ)
    (cycle : Nat → Except ε σ) : Except ε σ × Nat × List ℚ :=
  backOffRun (fun k => updateStateOnce lastState (cycle k)) 3

/-! Conversation log (messageManager.ts, llm message model). -/

/-- Message roles of the llm message model. -/
inductive Role where
  | system
  | user
  | assistant
  deriving DecidableEq, Repr

/-- One content part of a message: a text part optionally carrying the
cache-boundary marker, an image part, or any other part kind
(tool-result, thinking), which never carries the marker. -/
inductive MessageContent where
  | text (text : String) (cacheControl : Bool)
  | image (imageB64 : String)
  | other
  deriving DecidableEq, Repr

/-- Message of the conversation log. -/
structure MessageType where
  role : Role
  content : List MessageContent
  isStateMessage : Bool := false
  deriving DecidableEq, Repr

/-- Does a content part carry an active cache-boundary marker. -/
def contentHasCacheControl : MessageContent → Bool
  | .text _ cc => cc
  | _ => false

/-- MessageManager.hasCacheControl: some text part has cacheControl true. -/
def hasCacheControl (message : MessageType) : Bool :=
  message.content.any contentHasCacheControl

/-- Clear the cacheControl field of a text part. -/
def clearContentCacheControl : MessageContent → MessageContent
  | .text t _ => .text t false
  | c => c

/-- MessageManager.removeCacheControl: set cacheControl to false on every
text part of the message. -/
def removeCacheControl (message : MessageType) : MessageType :=
  { message with content := message.content.map clearContentCacheControl }

/-- Backward walk of MessageManager.getMessages over the log, latest
message first: system messages are skipped; once a message with an active
marker has been found, every earlier non-system message has its markers
cleared. The source checks hasCacheControl after the clearing, hence on
the possibly cleared message. -/
def getMessagesAuxRev (foundFirstCacheControl : Bool) :
    List MessageType → List MessageType
  | [] => []
  | msg :: rest =>
    if msg.role = Role.system then
      msg :: getMessagesAuxRev foundFirstCacheControl rest
    else
      let msg1 := if foundFirstCacheControl then removeCacheControl msg else msg
      msg1 :: getMessagesAuxRev (foundFirstCacheControl || hasCacheControl msg1) rest

/-- MessageManager.getMessages: clear all past cache-boundary markers
except the latest one, mutating the log in place, and return the log. -/
def getMessages (messages : List MessageType) : List MessageType :=
  (getMessagesAuxRev false messages.reverse).reverse

/-- MessageManager.removeLastMessage: pop the last message, but only when
the log holds more than one message. -/
def removeLastMessage (messages : List MessageType) : List MessageType :=
  if 1 < messages.length then messages.dropLast else messages

/-- Outcome of an executed action (agent models): done flag, optional
content and optional error. -/
structure ActionResult where
  isDone : Bool := false
  content : Option String := none
  error : Option String := none
  deriving DecidableEq, Repr

/-- Message pushed by MessageManager.addCurrentStateMessage: a user message
made of the state-description text part, tag text parts and the two
screenshot images; none of its text parts carries a cache marker and it is
not flagged as a state message. -/
def currentStateMessage (stateDescription screenshot screenshotWithHighlights :
    String) : MessageType :=
  { role := .user
    content := [.text stateDescription false,
      .text "<current_state_clean_screenshot>" false,
      .image screenshot,
      .text "</current_state_clean_screenshot>" false,
      .text "<current_state>" false,
      .image screenshotWithHighlights,
      .text "</current_state>" false]
    isStateMessage := false }

/-- Conversation left behind by Agent.step when the model call fails: the
current-state (perception) message is appended when a previous result
exists, getMessages prepares the model input (clearing stale markers in
place), and in the catch handler the last message is removed before the
error is rethrown. -/
def stepConversationOnModelFailure (messages : List MessageType)
    (previousResult : Option ActionResult) (stateMsg : MessageType) :
    List MessageType :=
  let m1 := if previousResult.isSome then messages ++ [stateMsg] else messages
  let m2 := getMessages m1
  removeLastMessage m2

/-! Control loop (agent.ts). Each step is abstracted by the action result
it produces; stepResult k is the outcome of step k. -/

/-- Loop state of Agent.run: step counter, last result, isDone flag. The
fuel argument equals maxSteps minus the current step. -/
def runLoopAux (stepResult : Nat → ActionResult) (result : Option ActionResult)
    (isDone : Bool) (step : Nat) : Nat → Nat × Option ActionResult × Bool
  | 0 => (step, result, isDone)
  | fuel + 1 =>
    if isDone then (step, result, isDone)
    else
      let r := stepResult step
      runLoopAux stepResult (some r) r.isDone (step + 1) fuel

/-- While loop of Agent.run: run steps while not done and step < maxSteps. -/
def runLoop (stepResult : Nat → ActionResult) (maxSteps : Nat) :
    Nat × Option ActionResult × Bool :=
  runLoopAux stepResult none false 0 maxSteps

/-- Aggregate output of Agent.run (fields relevant to the loop). -/
structure AgentOutput where
  result : ActionResult
  stepCount : Nat
  deriving DecidableEq, Repr

/-- Agent.run after the loop: returns the last result, or the fallback
no-result outcome when no step ran; reaching the step cap only logs and
returns normally, no error is thrown. -/
def runOutput (stepResult : Nat → ActionResult) (maxSteps : Nat) : AgentOutput :=
  let out := runLoop stepResult maxSteps
  { result := out.2.1.getD { error := some "No result produced" }
    stepCount := out.1 }

/-- Stream events of Agent.runStream (agent models): per-step chunk,
step-timeout chunk, error chunk with a message string, final-output
chunk. -/
inductive AgentStreamChunk where
  | step (actionResult : ActionResult)
  | stepTimeout (actionResult : ActionResult) (stepCount : Nat)
  | error (content : String)
  | finalOutput (output : AgentOutput)
  deriving DecidableEq, Repr

/-- Streaming loop of Agent.runStream without a wall-clock timeout
configured (timeout undefined skips the timeout branch): one step chunk
per completed step; on isDone a final-output chunk; when the loop exits
with the step cap reached, an error chunk with the max-steps message. The
fuel argument equals maxSteps minus the current step. -/
def runStreamAux (stepResult : Nat → ActionResult) (maxSteps : Nat) :
    Nat → Nat → List AgentStreamChunk
  | _, 0 => [.error ("Maximum number of steps reached: " ++ toString maxSteps)]
  | step, fuel + 1 =>
    let r := stepResult step
    if r.isDone then
      [.step r, .finalOutput { result := r, stepCount := step + 1 }]
    else
      .step r :: runStreamAux stepResult maxSteps (step + 1) fuel

/-- Event sequence of Agent.runStream (no timeout configured). -/
def runStreamEvents (stepResult : Nat → ActionResult) (maxSteps : Nat) :
    List AgentStreamChunk :=
  runStreamAux stepResult maxSteps 0 maxSteps

/-- Is a stream chunk the error-typed chunk. -/
def AgentStreamChunk.isErrorChunk : AgentStreamChunk → Bool
  | .error _ => true
  | _ => false

/-- Capture cycle that fails on its first two attempts and succeeds on the
third, producing snapshot 99. -/
def failTwiceCycle : Nat → Except String Nat :=
  fun k => if k < 2 then Except.error "capture failed" else Except.ok 99

/-- Step oracle whose chosen actions never produce a done outcome. -/
def neverDoneStep : Nat → ActionResult := fun _ => { isDone := false }

/-- Build a rectangle from its corners, with consistent width and height. -/
def mkRect (l t r b : ℚ) : Rect := ⟨l, t, r, b, r - l, b - t⟩

/-- Large container element: the unit square scaled to 100, weight 1. -/
def elA : InteractiveElement := ⟨0, "A", 1, 0, mkRect 0 0 100 100⟩

/-- Element overlapping elA by IoU 4/7 and not contained in it. -/
def elB : InteractiveElement := ⟨1, "B", 1, 0, mkRect 0 (-5) 100 60⟩

/-- Element contained in elA with higher weight and 60% of its area, and
with IoU 12/13 against elB. -/
def elC : InteractiveElement := ⟨2, "C", 2, 0, mkRect 0 0 100 60⟩

/-- Near-duplicate pair: the smaller rectangle has IoU 4/5 with the larger
one. -/
def ovSmall : InteractiveElement := ⟨0, "ovSmall", 1, 0, mkRect 0 0 100 80⟩

/-- Larger element of the near-duplicate pair. -/
def ovBig : InteractiveElement := ⟨1, "ovBig", 1, 0, mkRect 0 0 100 100⟩

/-- Container element evicted by its higher-weight child. -/
def evParent : InteractiveElement := ⟨0, "evParent", 1, 0, mkRect 0 0 100 100⟩

/-- Contained child with higher weight covering 60% of the parent. -/
def evChild : InteractiveElement := ⟨1, "evChild", 2, 0, mkRect 0 0 100 60⟩

/-- Single element carrying a stale index, to exhibit the index
overwrite. -/
def elIdx5 : InteractiveElement := ⟨5, "idx5", 1, 0, mkRect 0 0 10 10⟩

/-- First of two elements sharing identical geometry, weight and z-index
but different identities: the stable area sort cannot separate them. -/
def dupOne : InteractiveElement := ⟨0, "dupOne", 1, 0, mkRect 0 0 10 10⟩

/-- Second element of the identical pair. -/
def dupTwo : InteractiveElement := ⟨1, "dupTwo", 1, 0, mkRect 0 0 10 10⟩

/-- Element with area 100, distinct from pdTwo. -/
def pdOne : InteractiveElement := ⟨0, "pdOne", 1, 0, mkRect 0 0 10 10⟩

/-- Element with area 400 and a different row than pdOne. -/
def pdTwo : InteractiveElement := ⟨1, "pdTwo", 1, 0, mkRect 0 30 20 50⟩

/-- Element at the first row, right side (top 0, left 100). -/
def rowF0 : InteractiveElement := ⟨0, "f0", 1, 0, mkRect 100 0 110 10⟩

/-- Element 30 pixels below rowF0 (top 30, left 0). -/
def rowF30 : InteractiveElement := ⟨1, "f30", 1, 0, mkRect 0 30 10 40⟩

/-- Element 15 pixels below rowF0 (top 15, left 0). -/
def rowF15 : InteractiveElement := ⟨2, "f15", 1, 0, mkRect 0 15 10 25⟩

/-- Symmetric compatibility of two elements under the overlap rules at a
given threshold: neither IoU direction exceeds the threshold and neither
rectangle is fully contained in the other. Pairwise-compatible inputs pass
the overlap filter unchanged apart from the in-place sort. -/
def CompatAt (iouThreshold : ℚ) (a b : InteractiveElement) : Prop :=
  calculateIou a.rect b.rect ≤ iouThreshold ∧
    calculateIou b.rect a.rect ≤ iouThreshold ∧
    ¬ isFullyContained a.rect b.rect ∧ ¬ isFullyContained b.rect a.rect

instance (iouThreshold : ℚ) (a b : InteractiveElement) :
    Decidable (CompatAt iouThreshold a b) := by
  unfold CompatAt; infer_instance

/-- All element fields except the mutable index field agree. -/
def sameExceptIndex (a b : InteractiveElement) : Prop :=
  a.browserAgentId = b.browserAgentId ∧ a.weight = b.weight ∧
    a.zIndex = b.zIndex ∧ a.rect = b.rect

/-- Per-pair decision of the overlap rules, written from the amended claim
wording: an IoU above the threshold drops the candidate; containment in an
equal-or-greater-weight, same-z-index accepted element drops the
candidate; containment in any other accepted element evicts that element
when the candidate covers at least half of its area; otherwise both are
kept. -/
inductive OverlapDecision where
  | dropCurrent
  | evictExisting
  | keepBoth
  deriving DecidableEq, Repr

/-- Decide the overlap rules for one candidate/accepted pair. -/
def overlapDecision (iouThreshold : ℚ) (current existing : InteractiveElement) :
    OverlapDecision :=
  if iouThreshold < calculateIou current.rect existing.rect then .dropCurrent
  else if isFullyContained current.rect existing.rect then
    if current.weight ≤ existing.weight ∧ existing.zIndex = current.zIndex then
      .dropCurrent
    else if existing.rect.area * (1/2) ≤ current.rect.area then .evictExisting
    else .keepBoth
  else .keepBoth

/-- Spec-level scan of the accepted list, per the amended claim: accepted
elements are examined one at a time in acceptance order; the first
dropCurrent decision drops the candidate, the first evictExisting decision
removes that accepted element and ends the scan with the candidate kept;
later accepted elements are then not examined. -/
def scanSpec (iouThreshold : ℚ) (current : InteractiveElement) :
    List InteractiveElement → Option (List InteractiveElement)
  | [] => some []
  | existing :: rest =>
    match overlapDecision iouThreshold current existing with
    | .dropCurrent => none
    | .evictExisting => some rest
    | .keepBoth => (scanSpec iouThreshold current rest).map (existing :: ·)

/-- Spec-level candidate loop matching filterLoop. -/
def filterLoopSpec (iouThreshold : ℚ) :
    List InteractiveElement → List InteractiveElement → List InteractiveElement
  | filtered, [] => filtered
  | filtered, current :: rest =>
    match scanSpec iouThreshold current filtered with
    | none => filterLoopSpec iouThreshold filtered rest
    | some filtered1 => filterLoopSpec iouThreshold (filtered1 ++ [current]) rest

/-- Spec-level overlap filtering per the amended claim: candidates in
descending-area order (ties by descending weight), each scanned against
the accepted list as in scanSpec. -/
def filterOverlappingSpec (elements : List InteractiveElement)
    (iouThreshold : ℚ) : List InteractiveElement :=
  if elements.isEmpty then []
  else filterLoopSpec iouThreshold [] (sortAreaWeight elements)

/-- One step of the spec-level row grouping, written from the claim
wording: an element joins the current row iff its top edge is within 20
pixels of the last element added to that row, else it closes the current
row and starts a new one. -/
def readingRowsStep (acc : List (List InteractiveElement) × List InteractiveElement)
    (element : InteractiveElement) :
    List (List InteractiveElement) × List InteractiveElement :=
  match acc.2.getLast? with
  | none => (acc.1, [element])
  | some lastElement =>
    if |element.rect.top - lastElement.rect.top| ≤ 20 then (acc.1, acc.2 ++ [element])
    else (acc.1 ++ [acc.2], [element])

/-- Close the pending row of the spec-level grouping state, if any. -/
def closeRows (acc : List (List InteractiveElement) × List InteractiveElement) :
    List (List InteractiveElement) :=
  if acc.2.isEmpty then acc.1 else acc.1 ++ [acc.2]

/-- Spec-level row grouping: fold the elements in order, then close the
pending row if any. -/
def readingRows (l : List InteractiveElement) : List (List InteractiveElement) :=
  closeRows (l.foldl readingRowsStep ([], []))

/-- Spec-level reading-order sort, written from the claim: process elements
in ascending top-edge order, group into rows with the 20-pixel tolerance
against the last element added to the row, sort each row by ascending left
edge, flatten rows top to bottom, reassign index sequentially. -/
def readingOrderSpec (elements : List InteractiveElement) :
    List InteractiveElement :=
  reindexFrom 0
    (((readingRows (List.insertionSort topOrder elements)).map
      (List.insertionSort leftOrder)).flatten)

/-- Concrete six-message conversation log with cache-boundary markers on
messages 2 and 5 (zero-based). -/
def demoLog : List MessageType :=
  [{ role := .system, content := [.text "sys" false] },
   { role := .user, content := [.text "m1" false] },
   { role := .user, content := [.text "m2" true] },
   { role := .assistant, content := [.text "m3" false] },
   { role := .user, content := [.text "m4" false] },
   { role := .user, content := [.text "m5" true] }]

/-- Concrete conversation before a failing step: a system message plus two
messages carrying active cache markers, as left behind by the system/task
seeding and a previous model turn. -/
def rollbackLogBefore : List MessageType :=
  [{ role := .system, content := [.text "sys" false] },
   { role := .user, content := [.text "task" true] },
   { role := .user, content := [.text "turn 1 output" true] }]

/-- Spec-level marker normalization, following the claim: in a list of
per-message marker flags, every marker except the most recently added one
is cleared. Walks the reversed list: the first active flag from the end is
kept, all earlier flags are cleared. -/
def keepOnlyLastAuxRev : List Bool → List Bool
  | [] => []
  | b :: rest =>
    if b then b :: rest.map (fun _ => false) else b :: keepOnlyLastAuxRev rest

/-- Spec-level marker normalization of a marker-flag list, oldest first. -/
def keepOnlyLast (l : List Bool) : List Bool :=
  (keepOnlyLastAuxRev l.reverse).reverse

/-- A message whose markers were cleared has no active marker. -/
theorem hasCacheControl_removeCacheControl (m : MessageType) :
    hasCacheControl (removeCacheControl m) = false := by
  unfold hasCacheControl removeCacheControl
  simp only [List.any_map, List.any_eq_false, Function.comp]
  intro c _
  cases c <;> simp [clearContentCacheControl, contentHasCacheControl]

/-- After the marker has been found, the backward walk clears the marker of
every later-visited (earlier) non-system message; system messages carry no
marker by hypothesis. -/
theorem getMessagesAuxRev_true_map (l : List MessageType)
    (hsys : ∀ m ∈ l, m.role = Role.system → hasCacheControl m = false) :
    (getMessagesAuxRev true l).map hasCacheControl = l.map (fun _ => false) := by
  induction l with
  | nil => rfl
  | cons m rest ih =>
    have hrest : ∀ x ∈ rest, x.role = Role.system → hasCacheControl x = false :=
      fun x hx => hsys x (List.mem_cons_of_mem m hx)
    by_cases hm : m.role = Role.system
    · simp [getMessagesAuxRev, hm, ih hrest, hsys m (List.mem_cons_self m rest) hm]
    · simp [getMessagesAuxRev, hm, hasCacheControl_removeCacheControl, ih hrest]

/-- The backward walk of getMessages computes, on the marker flags, exactly
the spec-level normalization keeping only the most recent marker. -/
theorem getMessagesAuxRev_false_map (l : List MessageType)
    (hsys : ∀ m ∈ l, m.role = Role.system → hasCacheControl m = false) :
    (getMessagesAuxRev false l).map hasCacheControl =
      keepOnlyLastAuxRev (l.map hasCacheControl) := by
  induction l with
  | nil => rfl
  | cons m rest ih =>
    have hrest : ∀ x ∈ rest, x.role = Role.system → hasCacheControl x = false :=
      fun x hx => hsys x (List.mem_cons_of_mem m hx)
    by_cases hm : m.role = Role.system
    · have hcc := hsys m (List.mem_cons_self m rest) hm
      simp [getMessagesAuxRev, hm, keepOnlyLastAuxRev, hcc, ih hrest]
    · cases hcc : hasCacheControl m with
      | false =>
        simp [getMessagesAuxRev, hm, hcc, keepOnlyLastAuxRev, ih hrest]
      | true =>
        simp [getMessagesAuxRev, hm, hcc, keepOnlyLastAuxRev,
          getMessagesAuxRev_true_map rest hrest, List.map_map, Function.comp_def]

/-- Count of active flags after the spec-level normalization, reversed
walk: at most one. -/
theorem count_keepOnlyLastAuxRev (l : List Bool) :
    (keepOnlyLastAuxRev l).count true ≤ 1 := by
  induction l with
  | nil => simp [keepOnlyLastAuxRev]
  | cons b rest ih =>
    cases b with
    | false =>
      simpa [keepOnlyLastAuxRev, List.count_cons] using ih
    | true =>
      have hz : (List.replicate rest.length false).count true = 0 := by
        simp [List.count_eq_zero, List.eq_of_mem_replicate]
      simp [keepOnlyLastAuxRev, List.count_cons, hz]

/-- The normalized flag list has at most one active flag. -/
theorem count_keepOnlyLast (l : List Bool) : (keepOnlyLast l).count true ≤ 1 := by
  unfold keepOnlyLast
  simpa [List.count_reverse] using count_keepOnlyLastAuxRev l.reverse

/-! Theorems for the claims. -/

/-- C1: if the capture cycle fails on every attempt and a previous
successful snapshot exists, updateState returns that stale snapshot and no
error reaches the caller; the error propagates only when no prior snapshot
exists (the tracked state field is undefined), and then after all three
attempts with the two backoff delays. -/
theorem updateState_stale_fallback {σ ε : Type} (cycle : Nat → Except ε σ)
    (hfail : ∀ k, ∃ e, cycle k = Except.error e) :
    (∀ s : σ, (updateState (some s) cycle).1 = Except.ok s) ∧
    (∃ e, updateState (none : Option σ) cycle = (Except.error e, 3, [500, 750])) ∧
    (∀ lastState : Option σ, ∀ e, (updateState lastState cycle).1 = Except.error e →
      lastState = none) := by
  obtain ⟨e0, h0⟩ := hfail 0
  obtain ⟨e1, h1⟩ := hfail 1
  obtain ⟨e2, h2⟩ := hfail 2
  refine ⟨fun s => ?_, ⟨e2, ?_⟩, fun lastState e h => ?_⟩
  · simp [updateState, backOffRun, backOffAux, updateStateOnce, h0]
  · simp only [updateState, backOffRun, backOffAux, updateStateOnce, h0, h1, h2]
    norm_num
  · cases lastState with
    | none => rfl
    | some s =>
      simp [updateState, backOffRun, backOffAux, updateStateOnce, h0] at h

theorem updateState_stale_fallback_witness :
    (updateState (some 42) (fun _ => (Except.error "boom" : Except String Nat))).1 =
      Except.ok 42 ∧
    (∃ e, updateState (none : Option Nat) (fun _ => (Except.error "boom" : Except String Nat)) =
      (Except.error e, 3, [500, 750])) :=
  have h := updateState_stale_fallback (fun _ => (Except.error "boom" : Except String Nat))
    (fun _ => ⟨"boom", rfl⟩)
  ⟨h.1 42, h.2.1⟩

/-- C2 counterexample: with a previous snapshot (here 7) cached — the
situation the constructor's initState guarantees — a capture cycle that
fails twice and succeeds on the third attempt does not make updateState
return the successful snapshot 99 after two retries: already the first
failure returns the stale snapshot, with a single cycle invocation and no
backoff delay. -/
theorem updateState_retries_cex :
    updateState (some 7) failTwiceCycle = (Except.ok 7, 1, []) ∧
    (Except.ok 7 : Except String Nat) ≠ Except.ok 99 := by
  refine ⟨rfl, by simp⟩

/-- C2 amended: the per-attempt fallback inside the retried cycle absorbs
failures whenever a previous snapshot exists, so the first failed attempt
returns the stale snapshot with no retry; only when no prior snapshot
exists does a cycle failing on its first two attempts and succeeding on the
third make updateState return the successful snapshot after exactly two
retries (three attempts), with delays of 500ms then 750ms (times 1.5) and
no delay before the first attempt. -/
theorem updateState_retries_amended {σ ε : Type} (cycle : Nat → Except ε σ) (s : σ)
    (h0 : ∃ e, cycle 0 = Except.error e) (h1 : ∃ e, cycle 1 = Except.error e)
    (h2 : cycle 2 = Except.ok s) :
    (∀ s0 : σ, updateState (some s0) cycle = (Except.ok s0, 1, [])) ∧
    updateState (none : Option σ) cycle = (Except.ok s, 3, [500, 750]) := by
  obtain ⟨e0, h0⟩ := h0
  obtain ⟨e1, h1⟩ := h1
  constructor
  · intro s0
    simp [updateState, backOffRun, backOffAux, updateStateOnce, h0]
  · simp only [updateState, backOffRun, backOffAux, updateStateOnce, h0, h1, h2]
    norm_num

theorem updateState_retries_amended_witness :
    (∀ s0 : Nat, updateState (some s0) failTwiceCycle = (Except.ok s0, 1, [])) ∧
    updateState (none : Option Nat) failTwiceCycle = (Except.ok 99, 3, [500, 750]) :=
  updateState_retries_amended failTwiceCycle 99
    ⟨"capture failed", rfl⟩ ⟨"capture failed", rfl⟩ rfl

/-- C9 counterexample: with a step cap of 5 and actions that never report
done, the streaming loop terminates after 5 steps, but its terminal signal
is the error-typed chunk carrying the max-steps message — not a distinct
non-error signal as the claim states. -/
theorem runStream_maxSteps_cex :
    runStreamEvents neverDoneStep 5 =
      [AgentStreamChunk.step { isDone := false }, .step { isDone := false },
       .step { isDone := false }, .step { isDone := false }, .step { isDone := false },
       .error "Maximum number of steps reached: 5"] ∧
    (runStreamEvents neverDoneStep 5).getLast?.map AgentStreamChunk.isErrorChunk =
      some true := by
  refine ⟨rfl, rfl⟩

/-- C9 amended: with a step cap of 5 and a model whose actions never
produce a done outcome, the loop executes exactly 5 steps and terminates
without throwing: the batch run returns normally with step count 5 and the
last step's result, and the streaming run emits one chunk per step followed
by a single terminal chunk — which is the error-typed chunk with the
max-steps message, not a distinct non-error signal. -/
theorem run_maxSteps_amended (stepResult : Nat → ActionResult)
    (h : ∀ k, (stepResult k).isDone = false) :
    runOutput stepResult 5 = { result := stepResult 4, stepCount := 5 } ∧
    runLoop stepResult 5 = (5, some (stepResult 4), false) ∧
    runStreamEvents stepResult 5 =
      [.step (stepResult 0), .step (stepResult 1), .step (stepResult 2),
       .step (stepResult 3), .step (stepResult 4),
       .error "Maximum number of steps reached: 5"] := by
  refine ⟨?_, ?_, ?_⟩ <;>
    · simp only [runOutput, runLoop, runLoopAux, runStreamEvents, runStreamAux, h,
        Bool.false_eq_true, if_false, Option.getD_some]
      try rfl

/-- C7: after getMessages returns, the per-message cache-marker flags of
the whole log are exactly the input flags with every marker except the most
recently added one cleared; in particular at most one marker is active.
Hypothesis: system messages carry no marker (they are skipped by the walk;
the log-building operations never mark them). -/
theorem getMessages_cache_boundary (messages : List MessageType)
    (hsys : ∀ m ∈ messages, m.role = Role.system → hasCacheControl m = false) :
    (getMessages messages).map hasCacheControl =
      keepOnlyLast (messages.map hasCacheControl) ∧
    ((getMessages messages).map hasCacheControl).count true ≤ 1 := by
  have hrev : ∀ m ∈ messages.reverse, m.role = Role.system → hasCacheControl m = false := by
    intro m hm
    exact hsys m (List.mem_reverse.mp hm)
  have hmain : (getMessages messages).map hasCacheControl =
      keepOnlyLast (messages.map hasCacheControl) := by
    unfold getMessages keepOnlyLast
    rw [List.map_reverse, getMessagesAuxRev_false_map messages.reverse hrev,
      List.map_reverse]
  exact ⟨hmain, by rw [hmain]; exact count_keepOnlyLast _⟩

theorem getMessages_cache_boundary_witness :
    (∀ m ∈ demoLog, m.role = Role.system → hasCacheControl m = false) ∧
    ((getMessages demoLog).map hasCacheControl =
      keepOnlyLast (demoLog.map hasCacheControl) ∧
      ((getMessages demoLog).map hasCacheControl).count true ≤ 1) ∧
    (getMessages demoLog).map hasCacheControl =
      [false, false, false, false, false, true] :=
  ⟨by decide, getMessages_cache_boundary demoLog (by decide), by decide⟩

/-- Appending a marker-free non-system message commutes with the lazy
marker normalization of getMessages. -/
theorem getMessages_append_unmarked (messages : List MessageType) (p : MessageType)
    (hrole : p.role ≠ Role.system) (hp : hasCacheControl p = false) :
    getMessages (messages ++ [p]) = getMessages messages ++ [p] := by
  unfold getMessages
  rw [List.reverse_append]
  simp [getMessagesAuxRev, hrole, hp]

/-- The backward walk preserves the length of the log. -/
theorem length_getMessagesAuxRev (found : Bool) (l : List MessageType) :
    (getMessagesAuxRev found l).length = l.length := by
  induction l generalizing found with
  | nil => rfl
  | cons m rest ih =>
    by_cases hm : m.role = Role.system
    · simp [getMessagesAuxRev, hm, ih]
    · cases found <;> simp [getMessagesAuxRev, hm, ih]

/-- getMessages preserves the length of the log. -/
theorem length_getMessages (messages : List MessageType) :
    (getMessages messages).length = messages.length := by
  unfold getMessages
  simp [length_getMessagesAuxRev]

/-- C8 counterexample: with a prior conversation carrying two active cache
markers (reachable: the task seeding and each recorded model turn add a
marker, cleared only lazily on read), a step that appends the perception
entry and then fails its model call does not restore the conversation to
its pre-append value: the read before the model call also cleared the
older marker in place. -/
theorem step_rollback_cex :
    stepConversationOnModelFailure rollbackLogBefore (some { isDone := false })
        (currentStateMessage "d" "s" "h") ≠ rollbackLogBefore ∧
    stepConversationOnModelFailure rollbackLogBefore (some { isDone := false })
        (currentStateMessage "d" "s" "h") =
      [{ role := .system, content := [.text "sys" false] },
       { role := .user, content := [.text "task" false] },
       { role := .user, content := [.text "turn 1 output" true] }] := by
  refine ⟨by decide, by decide⟩

/-- C8 amended: when the model call of a step fails, the perception entry
appended at the start of that step is removed before the error is
surfaced; the resulting conversation equals the pre-append conversation
with all but its most recent cache marker cleared (the clearing performed
by the read preceding the model call), hence equals the pre-append
conversation exactly whenever that conversation was already normalized. -/
theorem step_rollback_amended (messages : List MessageType) (r : ActionResult)
    (d s h : String) (hne : messages ≠ []) :
    stepConversationOnModelFailure messages (some r) (currentStateMessage d s h) =
      getMessages messages ∧
    (getMessages messages = messages →
      stepConversationOnModelFailure messages (some r) (currentStateMessage d s h) =
        messages) := by
  have hrole : (currentStateMessage d s h).role ≠ Role.system := by
    simp [currentStateMessage]
  have hp : hasCacheControl (currentStateMessage d s h) = false := rfl
  have happ := getMessages_append_unmarked messages (currentStateMessage d s h) hrole hp
  have hlen : 1 < (getMessages messages ++ [currentStateMessage d s h]).length := by
    rw [List.length_append, length_getMessages, List.length_singleton]
    have : 0 < messages.length := List.length_pos.mpr hne
    omega
  have hmain : stepConversationOnModelFailure messages (some r)
      (currentStateMessage d s h) = getMessages messages := by
    unfold stepConversationOnModelFailure
    simp only [Option.isSome_some, if_pos]
    rw [happ]
    unfold removeLastMessage
    rw [if_pos hlen, List.dropLast_concat]
  exact ⟨hmain, fun hnorm => hmain.trans hnorm⟩

theorem step_rollback_amended_witness :
    rollbackLogBefore ≠ [] ∧
    stepConversationOnModelFailure rollbackLogBefore (some { isDone := false })
        (currentStateMessage "d" "s" "h") = getMessages rollbackLogBefore :=
  ⟨by decide,
    (step_rollback_amended rollbackLogBefore { isDone := false } "d" "s" "h"
      (by decide)).1⟩

theorem run_maxSteps_amended_witness :
    runOutput neverDoneStep 5 = { result := { isDone := false }, stepCount := 5 } ∧
    runLoop neverDoneStep 5 = (5, some { isDone := false }, false) ∧
    runStreamEvents neverDoneStep 5 =
      [.step { isDone := false }, .step { isDone := false }, .step { isDone := false },
       .step { isDone := false }, .step { isDone := false },
       .error "Maximum number of steps reached: 5"] :=
  run_maxSteps_amended neverDoneStep (fun _ => rfl)

/-- The source scan of the accepted list and the spec-level scan decide
identically. -/
theorem scanAccepted_eq_scanSpec (iouThreshold : ℚ) (c : InteractiveElement) :
    ∀ acc, scanAccepted iouThreshold c acc = scanSpec iouThreshold c acc := by
  intro acc
  induction acc with
  | nil => rfl
  | cons e rest ih =>
    simp only [scanAccepted, scanSpec, overlapDecision]
    split_ifs <;> simp [ih]

/-- The source candidate loop and the spec-level loop agree. -/
theorem filterLoop_eq_filterLoopSpec (iouThreshold : ℚ) :
    ∀ cands acc, filterLoop iouThreshold acc cands =
      filterLoopSpec iouThreshold acc cands := by
  intro cands
  induction cands with
  | nil => intro acc; rfl
  | cons c rest ih =>
    intro acc
    simp only [filterLoop, filterLoopSpec, scanAccepted_eq_scanSpec]
    cases h : scanSpec iouThreshold c acc <;> simp [ih]

/-- C3 counterexample: on the concrete input elA, elB, elC (processed in
that descending-area order), the accepted list is [elA, elB] when elC is
examined; the scan evicts elA and stops, so elC is kept without ever being
compared against elB although their IoU is 12/13, above the threshold. The
final output itself contains the pair elB, elC with IoU above the
threshold, which the claimed drop-on-any-accepted rule forbids. -/
theorem filterOverlapping_iou_any_cex :
    filterOverlappingElements [elA, elB, elC] (7/10) = [elB, elC] ∧
    scanAccepted (7/10) elC [elA, elB] = some [elB] ∧
    (7/10 : ℚ) < calculateIou elC.rect elB.rect := by
  refine ⟨by decide, by decide, by decide⟩

/-- C3 amended: candidates are processed in descending-area order, ties by
descending weight, and each candidate is compared against accepted
elements one at a time in acceptance order: the scan drops the candidate
at the first accepted element whose IoU with it exceeds the threshold, or
which contains it with equal-or-greater weight and equal z-index; when an
accepted container has neither property and the candidate covers at least
half of its area, that container alone is evicted and the scan stops with
the candidate kept, leaving the remaining accepted elements unexamined;
containment in a more-than-twice-larger container with neither dropping
property leaves both and the scan continues. The concrete conjuncts show
the near-duplicate drop (IoU 4/5) and the eviction of a parent by its
higher-weight 60%-area child. -/
theorem filterOverlapping_rules_amended :
    (∀ (elements : List InteractiveElement) (iouThreshold : ℚ),
      filterOverlappingElements elements iouThreshold =
        filterOverlappingSpec elements iouThreshold) ∧
    filterOverlappingElements [ovSmall, ovBig] (7/10) = [ovBig] ∧
    filterOverlappingElements [evParent, evChild] (7/10) = [evChild] := by
  refine ⟨fun elements iouThreshold => ?_, by decide, by decide⟩
  unfold filterOverlappingElements filterOverlappingSpec
  rw [filterLoop_eq_filterLoopSpec]

/-- Unfolding step of the row-grouping loop. -/
theorem groupRowsAux_cons (lastElement : InteractiveElement)
    (currentRow : List InteractiveElement) (e : InteractiveElement)
    (rest : List InteractiveElement) :
    groupRowsAux lastElement currentRow (e :: rest) =
      if |e.rect.top - lastElement.rect.top| ≤ 20 then
        groupRowsAux e (currentRow ++ [e]) rest
      else currentRow :: groupRowsAux e [e] rest := rfl

/-- Row grouping only splits the list: flattening the rows restores the
grouped list. -/
theorem groupRowsAux_flatten (rest : List InteractiveElement) :
    ∀ (lastElement : InteractiveElement) (currentRow : List InteractiveElement),
      (groupRowsAux lastElement currentRow rest).flatten = currentRow ++ rest := by
  induction rest with
  | nil => intro lastElement currentRow; simp [groupRowsAux]
  | cons e r ih =>
    intro lastElement currentRow
    unfold groupRowsAux
    split_ifs <;> simp [ih]

/-- Flattening the grouped rows restores the input list. -/
theorem groupRows_flatten (l : List InteractiveElement) :
    (groupRows l).flatten = l := by
  cases l with
  | nil => rfl
  | cons e rest => simp [groupRows, groupRowsAux_flatten]

/-- The reading-order arrangement permutes the input elements. -/
theorem arrangeByPosition_perm (l : List InteractiveElement) :
    List.Perm (arrangeByPosition l) l := by
  unfold arrangeByPosition
  have hrows : ∀ rows : List (List InteractiveElement),
      List.Perm (rows.map (List.insertionSort leftOrder)).flatten rows.flatten := by
    intro rows
    induction rows with
    | nil => exact List.Perm.refl _
    | cons row rs ih =>
      simpa using (List.perm_insertionSort leftOrder row).append ih
  have h1 := hrows (groupRows (List.insertionSort topOrder l))
  rw [groupRows_flatten] at h1
  exact h1.trans (List.perm_insertionSort topOrder l)

/-- Index fields after reindexing are the consecutive integers from n. -/
theorem reindexFrom_map_index :
    ∀ (l : List InteractiveElement) (n : Nat),
      (reindexFrom n l).map InteractiveElement.index =
        (List.range l.length).map (fun i => ((n + i : Nat) : Int)) := by
  intro l
  induction l with
  | nil => intro n; rfl
  | cons e rest ih =>
    intro n
    simp only [reindexFrom, List.map_cons, ih (n + 1), List.length_cons,
      List.range_succ_eq_map, List.map_map]
    congr 1
    apply List.map_congr_left
    intro i _
    simp only [Function.comp_apply]
    omega

/-- The reading-order sort reassigns the index field of its output
sequentially from 0. -/
theorem sortElementsByPosition_map_index (l : List InteractiveElement) :
    (sortElementsByPosition l).map InteractiveElement.index =
      (List.range l.length).map Int.ofNat := by
  cases l with
  | nil => rfl
  | cons e rest =>
    unfold sortElementsByPosition
    rw [if_neg (by simp)]
    rw [reindexFrom_map_index]
    rw [(arrangeByPosition_perm (e :: rest)).length_eq]
    simp only [Nat.zero_add]
    rfl

/-- C10: the resolver mutates its input. The caller's array after
filterOverlappingElements holds the input reordered in place into
descending-area order (ties by descending weight); sortElementsByPosition
overwrites the index field of the element objects it was given with the
sequential reading-order positions. The concrete conjuncts exhibit inputs
whose array order, respectively index fields, actually change. -/
theorem resolver_mutates_input :
    (∀ elements : List InteractiveElement,
      List.Perm (filterOverlappingArrayAfter elements) elements ∧
      (filterOverlappingArrayAfter elements).Sorted areaWeightOrder) ∧
    (∀ elements : List InteractiveElement,
      (sortElementsByPosition elements).map InteractiveElement.index =
        (List.range elements.length).map Int.ofNat) ∧
    (filterOverlappingArrayAfter [ovSmall, ovBig] = [ovBig, ovSmall] ∧
      ([ovBig, ovSmall] : List InteractiveElement) ≠ [ovSmall, ovBig]) ∧
    (sortElementsByPosition [elIdx5] = [{ elIdx5 with index := 0 }] ∧
      ({ elIdx5 with index := 0 } : InteractiveElement) ≠ elIdx5) := by
  refine ⟨fun elements => ?_, sortElementsByPosition_map_index,
    ⟨by decide, by decide⟩, by decide, by decide⟩
  unfold filterOverlappingArrayAfter
  cases elements with
  | nil => exact ⟨by simp, by simp⟩
  | cons e rest =>
    rw [if_neg (by simp)]
    exact ⟨List.perm_insertionSort areaWeightOrder (e :: rest),
      List.sorted_insertionSort areaWeightOrder (e :: rest)⟩

/-- The fold of the spec-level row grouping computes the source's row
grouping, given the invariant that the pending row ends in the last added
element. -/
theorem closeRows_foldl (rest : List InteractiveElement) :
    ∀ (done : List (List InteractiveElement)) (row : List InteractiveElement)
      (lastElement : InteractiveElement), row.getLast? = some lastElement →
      closeRows (rest.foldl readingRowsStep (done, row)) =
        done ++ groupRowsAux lastElement row rest := by
  induction rest with
  | nil =>
    intro done row lastElement hlast
    cases row with
    | nil => simp at hlast
    | cons x xs => simp [closeRows, groupRowsAux]
  | cons e r ih =>
    intro done row lastElement hlast
    rw [List.foldl_cons]
    have hstep : readingRowsStep (done, row) e =
        if |e.rect.top - lastElement.rect.top| ≤ 20 then (done, row ++ [e])
        else (done ++ [row], [e]) := by
      simp only [readingRowsStep, hlast]
    rw [hstep, groupRowsAux_cons]
    by_cases hcond : |e.rect.top - lastElement.rect.top| ≤ 20
    · rw [if_pos hcond, if_pos hcond, ih done (row ++ [e]) e (by simp)]
    · rw [if_neg hcond, if_neg hcond, ih (done ++ [row]) [e] e (by simp)]
      simp

/-- The source row grouping and the spec-level row grouping agree. -/
theorem groupRows_eq_readingRows (l : List InteractiveElement) :
    groupRows l = readingRows l := by
  cases l with
  | nil => rfl
  | cons e rest =>
    unfold readingRows
    rw [List.foldl_cons]
    have hstep : readingRowsStep ([], []) e = ([], [e]) := rfl
    rw [hstep, closeRows_foldl rest [] [e] e (by simp)]
    rfl

/-- C6: the reading-order sort equals the spec-level description — sort by
top edge, group rows with the 20-pixel tolerance against the last element
added to the row, sort rows by left edge, flatten, reindex sequentially —
and on the concrete scenarios: elements at tops 0 and 30 land in separate
rows ordered top-first, while elements at tops 0 and 15 share a row and
are ordered by ascending left edge. -/
theorem sortElementsByPosition_reading_order :
    (∀ elements : List InteractiveElement,
      sortElementsByPosition elements = readingOrderSpec elements) ∧
    sortElementsByPosition [rowF0, rowF30] =
      [{ rowF0 with index := 0 }, { rowF30 with index := 1 }] ∧
    sortElementsByPosition [rowF0, rowF15] =
      [{ rowF15 with index := 0 }, { rowF0 with index := 1 }] := by
  refine ⟨fun elements => ?_, by decide, by decide⟩
  cases elements with
  | nil => rfl
  | cons e rest =>
    unfold sortElementsByPosition readingOrderSpec arrangeByPosition
    rw [if_neg (by simp), groupRows_eq_readingRows]

/-- Two sorted permutations of each other are equal when the order is
antisymmetric on the listed elements. -/
theorem eq_of_perm_of_sorted_anti {α : Type} {r : α → α → Prop} :
    ∀ {l1 l2 : List α}, List.Perm l1 l2 → l1.Sorted r → l2.Sorted r →
      (∀ a ∈ l1, ∀ b ∈ l1, r a b → r b a → a = b) → l1 = l2 := by
  intro l1
  induction l1 with
  | nil =>
    intro l2 hp _ _ _
    exact hp.nil_eq
  | cons a t1 ih =>
    intro l2 hp h1 h2 hanti
    cases l2 with
    | nil => exact absurd hp.eq_nil (by simp)
    | cons b t2 =>
      have hab : a = b := by
        have haMem : a ∈ b :: t2 := hp.mem_iff.mp (List.mem_cons_self a t1)
        rcases List.mem_cons.mp haMem with h | haT2
        · exact h
        · have hbMem : b ∈ a :: t1 := hp.symm.mem_iff.mp (List.mem_cons_self b t2)
          rcases List.mem_cons.mp hbMem with h | hbT1
          · exact h.symm
          · have hrba : r b a := List.rel_of_sorted_cons h2 a haT2
            have hrab : r a b := List.rel_of_sorted_cons h1 b hbT1
            exact hanti a (List.mem_cons_self a t1) b (List.mem_cons_of_mem a hbT1)
              hrab hrba
      subst hab
      have ht : t1 = t2 := ih hp.cons_inv h1.of_cons h2.of_cons
        (fun x hx y hy => hanti x (List.mem_cons_of_mem a hx) y (List.mem_cons_of_mem a hy))
      rw [ht]

/-- The stable area sort is a function of the element multiset alone when
all areas are pairwise distinct. -/
theorem sortAreaWeight_perm_eq (xs ys : List InteractiveElement)
    (hperm : List.Perm ys xs)
    (hareas : xs.Pairwise (fun a b => a.rect.area ≠ b.rect.area)) :
    sortAreaWeight ys = sortAreaWeight xs := by
  have hp : List.Perm (sortAreaWeight ys) (sortAreaWeight xs) :=
    (List.perm_insertionSort _ ys).trans
      (hperm.trans (List.perm_insertionSort _ xs).symm)
  apply eq_of_perm_of_sorted_anti hp (List.sorted_insertionSort _ ys)
    (List.sorted_insertionSort _ xs)
  intro a ha b hb hrab hrba
  have haXs : a ∈ xs := hperm.mem_iff.mp ((List.mem_insertionSort _).mp ha)
  have hbXs : b ∈ xs := hperm.mem_iff.mp ((List.mem_insertionSort _).mp hb)
  by_contra hne
  have hAne : a.rect.area ≠ b.rect.area :=
    hareas.forall (fun x y hxy => hxy.symm) haXs hbXs hne
  unfold areaWeightOrder at hrab hrba
  rcases hrab with h | ⟨heq, _⟩
  · rcases hrba with h2 | ⟨heq2, _⟩
    · exact absurd h2 (lt_asymm h)
    · rw [heq2] at h
      exact lt_irrefl _ h
  · exact hAne heq.symm

/-- C5 counterexample: two elements with identical rectangle, weight and
z-index but different identities; swapping them in the input changes which
one survives overlap filtering, so the resolved element set differs. -/
theorem filterElements_perm_cex :
    List.Perm [dupTwo, dupOne] [dupOne, dupTwo] ∧
    filterElements [dupTwo, dupOne] (7/10) ≠ filterElements [dupOne, dupTwo] (7/10) :=
  ⟨List.Perm.swap dupOne dupTwo [], by decide⟩

/-- C5 amended: the resolver is order-independent once the area sort has no
ties: for inputs whose rectangle areas are pairwise distinct, resolving any
permutation of the input yields the same output list (same element set and
same final index order). With ties in the stable sort key, the processing
order and hence the surviving elements can depend on the input order. -/
theorem filterElements_perm_amended (xs ys : List InteractiveElement)
    (iouThreshold : ℚ) (hperm : List.Perm ys xs)
    (hareas : xs.Pairwise (fun a b => a.rect.area ≠ b.rect.area)) :
    filterElements ys iouThreshold = filterElements xs iouThreshold := by
  have hsort := sortAreaWeight_perm_eq xs ys hperm hareas
  unfold filterElements filterOverlappingElements
  cases xs with
  | nil =>
    have hys : ys = [] := hperm.eq_nil
    rw [hys]
  | cons x xt =>
    cases ys with
    | nil => exact absurd hperm.nil_eq (by simp)
    | cons y yt =>
      rw [if_neg (by simp), if_neg (by simp), hsort]

theorem filterElements_perm_amended_witness :
    List.Perm [pdTwo, pdOne] [pdOne, pdTwo] ∧
    ([pdOne, pdTwo] : List InteractiveElement).Pairwise
      (fun a b => a.rect.area ≠ b.rect.area) ∧
    filterElements [pdTwo, pdOne] (7/10) = filterElements [pdOne, pdTwo] (7/10) :=
  ⟨List.Perm.swap pdOne pdTwo [], by decide,
    filterElements_perm_amended [pdOne, pdTwo] [pdTwo, pdOne] (7/10)
      (List.Perm.swap pdOne pdTwo []) (by decide)⟩

/-- Compatibility is symmetric. -/
theorem CompatAt.symm {iouThreshold : ℚ} {a b : InteractiveElement}
    (h : CompatAt iouThreshold a b) : CompatAt iouThreshold b a :=
  ⟨h.2.1, h.1, h.2.2.2, h.2.2.1⟩

/-- Unfolding step of the candidate loop. -/
theorem filterLoop_cons (iouThreshold : ℚ) (acc : List InteractiveElement)
    (c : InteractiveElement) (rest : List InteractiveElement) :
    filterLoop iouThreshold acc (c :: rest) =
      match scanAccepted iouThreshold c acc with
      | none => filterLoop iouThreshold acc rest
      | some acc1 => filterLoop iouThreshold (acc1 ++ [c]) rest := rfl

/-- A candidate compatible with every accepted element passes the scan with
the accepted list unchanged. -/
theorem scanAccepted_keeps (iouThreshold : ℚ) (c : InteractiveElement) :
    ∀ acc, (∀ e ∈ acc, CompatAt iouThreshold c e) →
      scanAccepted iouThreshold c acc = some acc := by
  intro acc
  induction acc with
  | nil => intro _; rfl
  | cons e rest ih =>
    intro h
    obtain ⟨h1, _, h3, _⟩ := h e (List.mem_cons_self e rest)
    unfold scanAccepted
    rw [if_neg (not_lt.mpr h1), if_neg h3,
      ih (fun x hx => h x (List.mem_cons_of_mem e hx))]
    rfl

/-- Pairwise-compatible candidates are all accepted, in order, after any
accepted prefix compatible with all of them. -/
theorem filterLoop_keeps (iouThreshold : ℚ) :
    ∀ (cands acc : List InteractiveElement),
      cands.Pairwise (CompatAt iouThreshold) →
      (∀ a ∈ acc, ∀ b ∈ cands, CompatAt iouThreshold a b) →
      filterLoop iouThreshold acc cands = acc ++ cands := by
  intro cands
  induction cands with
  | nil => intro acc _ _; simp [filterLoop]
  | cons c rest ih =>
    intro acc hpw hcross
    have hscan : scanAccepted iouThreshold c acc = some acc :=
      scanAccepted_keeps iouThreshold c acc
        (fun e he => (hcross e he c (List.mem_cons_self c rest)).symm)
    have hstep : filterLoop iouThreshold acc (c :: rest) =
        filterLoop iouThreshold (acc ++ [c]) rest := by
      rw [filterLoop_cons, hscan]
    rw [hstep, ih (acc ++ [c]) (List.Pairwise.of_cons hpw) ?_]
    · simp
    · intro a ha b hb
      rcases List.mem_append.mp ha with haAcc | haC
      · exact hcross a haAcc b (List.mem_cons_of_mem c hb)
      · have : a = c := by simpa using haC
        subst this
        exact List.rel_of_pairwise_cons hpw hb

/-- A pairwise-compatible input passes the overlap filter unchanged apart
from the in-place area sort. -/
theorem filterOverlapping_keeps (iouThreshold : ℚ)
    (xs : List InteractiveElement)
    (hpw : xs.Pairwise (CompatAt iouThreshold)) :
    filterOverlappingElements xs iouThreshold = sortAreaWeight xs := by
  cases xs with
  | nil => rfl
  | cons x xt =>
    unfold filterOverlappingElements
    rw [if_neg (by simp)]
    have hpw2 : (sortAreaWeight (x :: xt)).Pairwise (CompatAt iouThreshold) :=
      ((List.perm_insertionSort areaWeightOrder (x :: xt)).pairwise_iff
        (fun h => h.symm)).mpr hpw
    rw [filterLoop_keeps iouThreshold (sortAreaWeight (x :: xt)) [] hpw2
      (fun a ha => absurd ha (List.not_mem_nil a))]
    rfl

/-- Reindexing relates the list pointwise to itself, all fields but the
index unchanged. -/
theorem forall₂_reindexFrom :
    ∀ (l : List InteractiveElement) (n : Nat),
      List.Forall₂ sameExceptIndex l (reindexFrom n l) := by
  intro l
  induction l with
  | nil => intro n; exact List.Forall₂.nil
  | cons e rest ih =>
    intro n
    exact List.Forall₂.cons ⟨rfl, rfl, rfl, rfl⟩ (ih (n + 1))

/-- Orders that read only index-independent fields respect the pointwise
relation through an ordered insertion. -/
theorem forall₂_orderedInsert {r : InteractiveElement → InteractiveElement → Prop}
    [DecidableRel r]
    (hr : ∀ a a' b b', sameExceptIndex a a' → sameExceptIndex b b' → (r a b ↔ r a' b')) :
    ∀ {l l' : List InteractiveElement}, List.Forall₂ sameExceptIndex l l' →
      ∀ {x x' : InteractiveElement}, sameExceptIndex x x' →
        List.Forall₂ sameExceptIndex (l.orderedInsert r x) (l'.orderedInsert r x') := by
  intro l l' h
  induction h with
  | nil =>
    intro x x' hx
    exact List.Forall₂.cons hx List.Forall₂.nil
  | cons hab hrest ih =>
    intro x x' hx
    rename_i a b l1 l2
    by_cases hc : r x a
    · rw [List.orderedInsert, if_pos hc, List.orderedInsert,
        if_pos ((hr x x' a b hx hab).mp hc)]
      exact List.Forall₂.cons hx (List.Forall₂.cons hab hrest)
    · rw [List.orderedInsert, if_neg hc, List.orderedInsert,
        if_neg (fun hcontra => hc ((hr x x' a b hx hab).mpr hcontra))]
      exact List.Forall₂.cons hab (ih hx)

/-- Orders that read only index-independent fields respect the pointwise
relation through the stable sort. -/
theorem forall₂_insertionSort {r : InteractiveElement → InteractiveElement → Prop}
    [DecidableRel r]
    (hr : ∀ a a' b b', sameExceptIndex a a' → sameExceptIndex b b' → (r a b ↔ r a' b')) :
    ∀ {l l' : List InteractiveElement}, List.Forall₂ sameExceptIndex l l' →
      List.Forall₂ sameExceptIndex (List.insertionSort r l) (List.insertionSort r l') := by
  intro l l' h
  induction h with
  | nil => exact List.Forall₂.nil
  | cons hab hrest ih =>
    exact forall₂_orderedInsert hr ih hab

/-- The row grouping respects the pointwise relation. -/
theorem forall₂_groupRowsAux :
    ∀ {rest rest' : List InteractiveElement},
      List.Forall₂ sameExceptIndex rest rest' →
      ∀ {lastElement lastElement' : InteractiveElement},
        sameExceptIndex lastElement lastElement' →
        ∀ {cur cur' : List InteractiveElement}, List.Forall₂ sameExceptIndex cur cur' →
          List.Forall₂ (List.Forall₂ sameExceptIndex)
            (groupRowsAux lastElement cur rest) (groupRowsAux lastElement' cur' rest') := by
  intro rest rest' h
  induction h with
  | nil =>
    intro lastElement lastElement' _ cur cur' hcur
    exact List.Forall₂.cons hcur List.Forall₂.nil
  | cons hee hrest ih =>
    intro lastElement lastElement' hlast cur cur' hcur
    rename_i e e' r r'
    have htop : e.rect.top = e'.rect.top := by rw [hee.2.2.2]
    have hltop : lastElement.rect.top = lastElement'.rect.top := by rw [hlast.2.2.2]
    rw [groupRowsAux_cons, groupRowsAux_cons]
    by_cases hcond : |e.rect.top - lastElement.rect.top| ≤ 20
    · rw [if_pos hcond, if_pos (by rw [← htop, ← hltop]; exact hcond)]
      exact ih hee (List.rel_append hcur (List.Forall₂.cons hee List.Forall₂.nil))
    · rw [if_neg hcond, if_neg (by rw [← htop, ← hltop]; exact hcond)]
      exact List.Forall₂.cons hcur (ih hee (List.Forall₂.cons hee List.Forall₂.nil))

/-- Row grouping respects the pointwise relation. -/
theorem forall₂_groupRows {l l' : List InteractiveElement}
    (h : List.Forall₂ sameExceptIndex l l') :
    List.Forall₂ (List.Forall₂ sameExceptIndex) (groupRows l) (groupRows l') := by
  cases h with
  | nil => exact List.Forall₂.nil
  | cons hee hrest =>
    exact forall₂_groupRowsAux hrest hee (List.Forall₂.cons hee List.Forall₂.nil)

/-- The left-edge order reads only index-independent fields. -/
theorem leftOrder_congr :
    ∀ a a' b b' : InteractiveElement, sameExceptIndex a a' → sameExceptIndex b b' →
      (leftOrder a b ↔ leftOrder a' b') := by
  intro a a' b b' ha hb
  unfold leftOrder
  rw [ha.2.2.2, hb.2.2.2]

/-- The top-edge order reads only index-independent fields. -/
theorem topOrder_congr :
    ∀ a a' b b' : InteractiveElement, sameExceptIndex a a' → sameExceptIndex b b' →
      (topOrder a b ↔ topOrder a' b') := by
  intro a a' b b' ha hb
  unfold topOrder
  rw [ha.2.2.2, hb.2.2.2]

/-- Reindexing erases the only difference tracked by the pointwise
relation. -/
theorem reindexFrom_eq_of_forall₂ :
    ∀ {l l' : List InteractiveElement}, List.Forall₂ sameExceptIndex l l' →
      ∀ n, reindexFrom n l = reindexFrom n l' := by
  intro l l' h
  induction h with
  | nil => intro n; rfl
  | cons hab hrest ih =>
    intro n
    rename_i a b l1 l2
    obtain ⟨h1, h2, h3, h4⟩ := hab
    unfold reindexFrom
    rw [ih (n + 1)]
    cases a
    cases b
    simp only at h1 h2 h3 h4
    simp [h1, h2, h3, h4]

/-- Sorting every row by left edge respects the pointwise relation. -/
theorem forall₂_map_sortLeft :
    ∀ {rows rows' : List (List InteractiveElement)},
      List.Forall₂ (List.Forall₂ sameExceptIndex) rows rows' →
      List.Forall₂ (List.Forall₂ sameExceptIndex)
        (rows.map (List.insertionSort leftOrder))
        (rows'.map (List.insertionSort leftOrder)) := by
  intro rows rows' h
  induction h with
  | nil => exact List.Forall₂.nil
  | cons hrow hrest ih =>
    exact List.Forall₂.cons (forall₂_insertionSort leftOrder_congr hrow) ih

/-- The reading-order sort is blind to the index fields of its input. -/
theorem sortElementsByPosition_forall₂ {l l' : List InteractiveElement}
    (h : List.Forall₂ sameExceptIndex l l') :
    sortElementsByPosition l = sortElementsByPosition l' := by
  cases h with
  | nil => rfl
  | cons hee hrest =>
    rename_i e e' t t'
    unfold sortElementsByPosition arrangeByPosition
    rw [if_neg (by simp), if_neg (by simp)]
    apply reindexFrom_eq_of_forall₂
    apply List.rel_flatten
    exact forall₂_map_sortLeft (forall₂_groupRows
      (forall₂_insertionSort topOrder_congr (List.Forall₂.cons hee hrest)))

/-- Membership in the right list of a pointwise relation has a related
member on the left. -/
theorem forall₂_exists_mem {S : InteractiveElement → InteractiveElement → Prop} :
    ∀ {l l' : List InteractiveElement}, List.Forall₂ S l l' →
      ∀ {b : InteractiveElement}, b ∈ l' → ∃ a ∈ l, S a b := by
  intro l l' h
  induction h with
  | nil => intro b hb; exact absurd hb (List.not_mem_nil b)
  | cons hab hrest ih =>
    intro b hb
    rename_i x y l1 l2
    rcases List.mem_cons.mp hb with hb | hb
    · exact ⟨x, List.mem_cons_self x l1, hb ▸ hab⟩
    · obtain ⟨a, haMem, haS⟩ := ih hb
      exact ⟨a, List.mem_cons_of_mem x haMem, haS⟩

/-- Pairwise properties that read only index-independent fields transfer
along the pointwise relation. -/
theorem pairwise_of_forall₂ {R : InteractiveElement → InteractiveElement → Prop}
    (hR : ∀ a a' b b', sameExceptIndex a a' → sameExceptIndex b b' → R a b → R a' b') :
    ∀ {l l' : List InteractiveElement}, List.Forall₂ sameExceptIndex l l' →
      l.Pairwise R → l'.Pairwise R := by
  intro l l' h
  induction h with
  | nil => intro _; exact List.Pairwise.nil
  | cons hab hrest ih =>
    intro hp
    rename_i a b l1 l2
    obtain ⟨hhead, htail⟩ := List.pairwise_cons.mp hp
    refine List.pairwise_cons.mpr ⟨?_, ih htail⟩
    intro b' hb'
    obtain ⟨x, hxMem, hxS⟩ := forall₂_exists_mem hrest hb'
    exact hR a b x b' hab hxS (hhead x hxMem)

/-- Compatibility reads only the rectangles. -/
theorem CompatAt_congr (iouThreshold : ℚ) :
    ∀ a a' b b' : InteractiveElement, sameExceptIndex a a' → sameExceptIndex b b' →
      CompatAt iouThreshold a b → CompatAt iouThreshold a' b' := by
  intro a a' b b' ha hb h
  unfold CompatAt at *
  rw [← ha.2.2.2, ← hb.2.2.2]
  exact h

/-- Distinctness of top edges reads only the rectangles. -/
theorem topNe_congr :
    ∀ a a' b b' : InteractiveElement, sameExceptIndex a a' → sameExceptIndex b b' →
      a.rect.top ≠ b.rect.top → a'.rect.top ≠ b'.rect.top := by
  intro a a' b b' ha hb h
  rw [← ha.2.2.2, ← hb.2.2.2]
  exact h

/-- The reading-order sort is a function of the element multiset alone when
all top edges are pairwise distinct. -/
theorem sortElementsByPosition_perm_eq (u v : List InteractiveElement)
    (hperm : List.Perm u v)
    (htops : v.Pairwise (fun a b => a.rect.top ≠ b.rect.top)) :
    sortElementsByPosition u = sortElementsByPosition v := by
  have hsorteq : List.insertionSort topOrder u = List.insertionSort topOrder v := by
    apply eq_of_perm_of_sorted_anti
      ((List.perm_insertionSort _ u).trans
        (hperm.trans (List.perm_insertionSort _ v).symm))
      (List.sorted_insertionSort _ u) (List.sorted_insertionSort _ v)
    intro a ha b hb hab hba
    have haV : a ∈ v := hperm.mem_iff.mp ((List.mem_insertionSort _).mp ha)
    have hbV : b ∈ v := hperm.mem_iff.mp ((List.mem_insertionSort _).mp hb)
    by_contra hne
    exact htops.forall (fun x y hxy => hxy.symm) haV hbV hne (le_antisymm hab hba)
  cases v with
  | nil => rw [hperm.eq_nil]
  | cons x xt =>
    cases u with
    | nil => exact absurd hperm.nil_eq (by simp)
    | cons y yt =>
      unfold sortElementsByPosition arrangeByPosition
      rw [if_neg (by simp), if_neg (by simp), hsorteq]

/-- C4 counterexample: resolving the three-element input elA, elB, elC at
threshold 0.7 keeps elB and elC, whose IoU is 12/13 (the eviction
short-circuit skipped that comparison); re-resolving therefore drops elC,
so the second resolve differs from the first in membership. -/
theorem filterElements_idem_cex :
    filterElements [elA, elB, elC] (7/10) =
      [{ elB with index := 0 }, { elC with index := 1 }] ∧
    filterElements (filterElements [elA, elB, elC] (7/10)) (7/10) =
      [{ elB with index := 0 }] ∧
    filterElements (filterElements [elA, elB, elC] (7/10)) (7/10) ≠
      filterElements [elA, elB, elC] (7/10) := by
  refine ⟨by decide, by decide, by decide⟩

/-- C4 amended: the resolver is idempotent on inputs whose elements are
pairwise non-conflicting — no IoU in either direction above the threshold
and no containment either way — and have pairwise distinct top edges; on
such inputs resolving the result of a resolve returns it unchanged, in
membership and index order (and resolve([]) = [] holds, the empty input
satisfying the hypotheses). In general idempotence fails: the eviction
short-circuit can keep a pair exceeding the IoU threshold, which a second
resolve then drops. -/
theorem filterElements_idem_amended (iouThreshold : ℚ)
    (xs : List InteractiveElement)
    (hcompat : xs.Pairwise (CompatAt iouThreshold))
    (htops : xs.Pairwise (fun a b => a.rect.top ≠ b.rect.top)) :
    filterElements (filterElements xs iouThreshold) iouThreshold =
      filterElements xs iouThreshold := by
  cases xs with
  | nil => rfl
  | cons x0 xt0 =>
    set xs := x0 :: xt0 with hxs
    set w := sortAreaWeight xs with hw
    have hwne : w ≠ [] := by
      have : w.length = xs.length := List.length_insertionSort _ _
      intro hcontra
      rw [hcontra] at this
      simp [hxs] at this
    have hwperm : List.Perm w xs := List.perm_insertionSort _ _
    have h1 : filterOverlappingElements xs iouThreshold = w :=
      filterOverlapping_keeps iouThreshold xs hcompat
    have harrw : List.Perm (arrangeByPosition w) w := arrangeByPosition_perm w
    have hy : filterElements xs iouThreshold = reindexFrom 0 (arrangeByPosition w) := by
      unfold filterElements
      rw [h1]
      unfold sortElementsByPosition
      rw [if_neg (by simp [List.isEmpty_iff, hwne])]
    set y := reindexFrom 0 (arrangeByPosition w) with hydef
    have hF : List.Forall₂ sameExceptIndex (arrangeByPosition w) y :=
      forall₂_reindexFrom (arrangeByPosition w) 0
    have hcompatW : w.Pairwise (CompatAt iouThreshold) :=
      (hwperm.pairwise_iff (fun h => h.symm)).mpr hcompat
    have htopsW : w.Pairwise (fun a b => a.rect.top ≠ b.rect.top) :=
      (hwperm.pairwise_iff (fun h => h.symm)).mpr htops
    have hcompatArr : (arrangeByPosition w).Pairwise (CompatAt iouThreshold) :=
      (harrw.pairwise_iff (fun h => h.symm)).mpr hcompatW
    have htopsArr : (arrangeByPosition w).Pairwise (fun a b => a.rect.top ≠ b.rect.top) :=
      (harrw.pairwise_iff (fun h => h.symm)).mpr htopsW
    have hcompatY : y.Pairwise (CompatAt iouThreshold) :=
      pairwise_of_forall₂ (CompatAt_congr iouThreshold) hF hcompatArr
    have htopsY : y.Pairwise (fun a b => a.rect.top ≠ b.rect.top) :=
      pairwise_of_forall₂ topNe_congr hF htopsArr
    have h2 : filterOverlappingElements y iouThreshold = sortAreaWeight y :=
      filterOverlapping_keeps iouThreshold y hcompatY
    have h3 : sortElementsByPosition (sortAreaWeight y) = sortElementsByPosition y :=
      sortElementsByPosition_perm_eq (sortAreaWeight y) y
        (List.perm_insertionSort _ y) htopsY
    have h4 : sortElementsByPosition y = sortElementsByPosition (arrangeByPosition w) :=
      (sortElementsByPosition_forall₂ hF).symm
    have h5 : sortElementsByPosition (arrangeByPosition w) = sortElementsByPosition w :=
      sortElementsByPosition_perm_eq (arrangeByPosition w) w harrw htopsW
    have h6 : sortElementsByPosition w = y := by
      rw [hydef]
      unfold sortElementsByPosition
      rw [if_neg (by simp [List.isEmpty_iff, hwne])]
    calc filterElements (filterElements xs iouThreshold) iouThreshold
        = filterElements y iouThreshold := by rw [hy]
      _ = sortElementsByPosition (sortAreaWeight y) := by
          unfold filterElements
          rw [h2]
      _ = y := by rw [h3, h4, h5, h6]
      _ = filterElements xs iouThreshold := hy.symm

theorem filterElements_idem_amended_witness :
    ([pdOne, pdTwo] : List InteractiveElement).Pairwise (CompatAt (7/10)) ∧
    ([pdOne, pdTwo] : List InteractiveElement).Pairwise
      (fun a b => a.rect.top ≠ b.rect.top) ∧
    filterElements (filterElements [pdOne, pdTwo] (7/10)) (7/10) =
      filterElements [pdOne, pdTwo] (7/10) :=
  ⟨by decide, by decide,
    filterElements_idem_amended (7/10) [pdOne, pdTwo] (by decide) (by decide)⟩

end IndexJs
